import Mathlib

/-!
Verification development for the vrog build-dependency engine (src/vrog.py).

The engine is embedded shallowly:

* A file system is a map from file names to optional modification times
  (Python: os.path.exists / os.path.getmtime; a missing file has no time and
  os.path.getmtime raises FileNotFoundError on it).
* A rule (class BuildRule) is its list of prerequisite names together with the
  effect its task has on the file system.  The task of every rule variant
  shipped with the repository (CompilerRule, LinkerRule, CleanRule and the
  generic callback rules in the samples) touches only the file system and
  spawns processes, so a task effect is a function of the target name, the
  current clock and the file system.
* The registry (BuildSystem.rules, a Python dict) is an association list from
  target names to rules, looked up by first match.
* BuildSystem.build is embedded as a fuel-indexed state transformer: the state
  carries the registry, the file system, a clock used to time-stamp files
  written by tasks, a trace of observable events (build entered, task invoked,
  build returned) and an optional pending error (a raised Python exception).
  Fuel running out is reported through a distinguished error so that any
  hypothesis of an error-free run excludes it.
-/

set_option autoImplicit false

namespace Vrog

/-- File system: maps a name to its modification time when the file exists. -/
abbrev FS := String → Option Nat

/-- A BuildRule: prerequisite names plus the task's effect on the file system.
The effect receives the target name, the current clock value and the file
system, mirroring a task that writes files time-stamped at the current time. -/
structure Rule where
  deps : List String
  eff : String → Nat → FS → FS

/-- The rule registry, BuildSystem.rules: target name to rule. -/
abbrev Rules := List (String × Rule)

/-- Dict lookup: self.rules[target] and the membership test target in self.rules. -/
def lookupRule (rules : Rules) (t : String) : Option Rule :=
  (rules.find? (fun p => p.1 == t)).map (fun p => p.2)

/-- Python exceptions raised by the embedded code, plus a fuel marker.
unknownTarget is the ValueError of build, cyclicDependency its RecursionError,
fileNotFound the FileNotFoundError of os.path.getmtime, typeError the
TypeError of the constructor checks, nameError and attributeError the
NameError and AttributeError raised by unresolved names in CompilerRule.task
and gen_deps, indexError the IndexError of gen_deps on empty output. -/
inductive PyErr where
  | unknownTarget
  | cyclicDependency
  | fileNotFound
  | typeError
  | nameError
  | attributeError
  | indexError
  | outOfFuel
  deriving DecidableEq

/-- Observable events of a build run: a build call entered for a target, a
rule's task invoked on a target (together with the console print), and a build
call returned normally for a target. -/
inductive Ev where
  | enter (t : String)
  | task (t : String)
  | done (t : String)
  deriving DecidableEq

/-- The mutable state threaded through build: the registry held by the
BuildSystem object, the file system, the clock, the event trace, and the
pending raised exception if any. -/
structure St where
  rules : Rules
  fs : FS
  now : Nat
  trace : List Ev
  err : Option PyErr

/-- The task invocations recorded in a trace, in order. -/
def taskEvents (tr : List Ev) : List String :=
  tr.filterMap (fun e => match e with | .task t => some t | _ => none)

/-- Measure for the termination of circular: registered target names not yet
on the dependents path. -/
def keysLeft (rules : Rules) (dependents : List String) : Nat :=
  (((rules.map Prod.fst).toFinset) \ dependents.toFinset).card

theorem lookupRule_mem {rules : Rules} {t : String} {r : Rule}
    (h : lookupRule rules t = some r) : t ∈ rules.map Prod.fst := by
  unfold lookupRule at h
  rcases ho : rules.find? (fun p => p.1 == t) with _ | p
  · rw [ho] at h; simp at h
  · have hp := List.find?_some ho
    have hmem := List.mem_of_find?_eq_some ho
    have : p.1 = t := by simpa using hp
    subst this
    exact List.mem_map.2 ⟨p, hmem, rfl⟩

theorem keysLeft_lt {rules : Rules} {target : String} {r : Rule}
    (dependents : List String) (h₁ : target ∉ dependents)
    (h₂ : lookupRule rules target = some r) :
    keysLeft rules (target :: dependents) < keysLeft rules dependents := by
  unfold keysLeft
  apply Finset.card_lt_card
  rw [List.toFinset_cons]
  constructor
  · exact Finset.sdiff_subset_sdiff (Finset.Subset.refl _)
      (Finset.subset_insert _ _)
  · intro hsub
    have hmem : target ∈ ((rules.map Prod.fst).toFinset) \ dependents.toFinset := by
      rw [Finset.mem_sdiff]
      exact ⟨List.mem_toFinset.2 (lookupRule_mem h₂),
        fun hc => h₁ (List.mem_toFinset.1 hc)⟩
    have := hsub hmem
    rw [Finset.mem_sdiff] at this
    exact this.2 (Finset.mem_insert_self _ _)

/-- BuildSystem.circular: depth-first cycle check.  The Python default
argument _dependents=set() is never mutated (the body only forms
_dependents.union, a fresh set), so the path set is a value threaded by
copy; the embedding makes that value passing explicit. -/
def circular (rules : Rules) (target : String) (dependents : List String) : Bool :=
  if h₁ : target ∈ dependents then true
  else
    match h₂ : lookupRule rules target with
    | none => false
    | some r => r.deps.any (fun d => circular rules d (target :: dependents))
termination_by keysLeft rules dependents
decreasing_by
  exact keysLeft_lt dependents (by assumption) (by assumption)

/-- The mtime comparison loop of build (lines 271-275): walk the
prerequisites in order; a missing prerequisite raises FileNotFoundError from
os.path.getmtime; the first prerequisite strictly newer than the target
triggers a rebuild and ends the loop. -/
def staleLoop (tmt : Nat) (fs : FS) : List String → Except PyErr (Option String)
  | [] => .ok none
  | d :: ds =>
    match fs d with
    | none => .error .fileNotFound
    | some dmt => if tmt < dmt then .ok (some d) else staleLoop tmt fs ds

/-- Invoking self.rules[target].task(target): the task effect is applied to
the file system, the clock advances, and the invocation (with its console
print) is recorded. -/
def runTask (r : Rule) (target : String) (st : St) : St :=
  { st with
    fs := r.eff target st.now st.fs
    now := st.now + 1
    trace := st.trace ++ [Ev.task target] }

/-- Lines 266-275 of build: the staleness decision made after the registered
prerequisites have been recursively built.  A missing target runs the task; an
existing target runs the task exactly when the comparison loop reports a newer
prerequisite, and raises when the loop raises. -/
def stalePhase (r : Rule) (target : String) (st : St) : St :=
  match st.fs target with
  | none =>
    let st' := runTask r target st
    { st' with trace := st'.trace ++ [Ev.done target] }
  | some tmt =>
    match staleLoop tmt st.fs r.deps with
    | .error e => { st with err := some e }
    | .ok (some _) =>
      let st' := runTask r target st
      { st' with trace := st'.trace ++ [Ev.done target] }
    | .ok none => { st with trace := st.trace ++ [Ev.done target] }

/-- BuildSystem.build, with a fuel bound on recursion depth.  A pending
exception short-circuits everything (Python unwinding).  The call is entered,
an unregistered target raises ValueError, a circular dependency chain raises
RecursionError, then every registered prerequisite is recursively built in
order, and finally the staleness decision runs. -/
def build : Nat → String → St → St
  | 0, _, st => if st.err.isSome then st else { st with err := some PyErr.outOfFuel }
  | fuel + 1, target, st =>
    if st.err.isSome then st
    else
      let st₁ : St := { st with trace := st.trace ++ [Ev.enter target] }
      match lookupRule st₁.rules target with
      | none => { st₁ with err := some PyErr.unknownTarget }
      | some r =>
        if circular st₁.rules target [] then
          { st₁ with err := some PyErr.cyclicDependency }
        else
          let st₂ := r.deps.foldl
            (fun acc d =>
              if acc.err.isSome then acc
              else
                match lookupRule acc.rules d with
                | none => acc
                | some _ => build fuel d acc) st₁
          if st₂.err.isSome then st₂ else stalePhase r target st₂

/-- The prerequisite recursion of build (lines 262-264), as a standalone
recursion equal to the fold inside build: each prerequisite that is a
registered target is built recursively, others are skipped. -/
def buildDeps (fuel : Nat) : List String → St → St
  | [], st => st
  | d :: ds, st =>
    buildDeps fuel ds
      (if st.err.isSome then st
       else
        match lookupRule st.rules d with
        | none => st
        | some _ => build fuel d st)

theorem buildDeps_eq_foldl (fuel : Nat) (ds : List String) (st : St) :
    buildDeps fuel ds st = ds.foldl
      (fun acc d =>
        if acc.err.isSome then acc
        else
          match lookupRule acc.rules d with
          | none => acc
          | some _ => build fuel d acc) st := by
  induction ds generalizing st with
  | nil => rfl
  | cons d ds ih => rw [List.foldl_cons, buildDeps, ih]

/-- One-step unfolding of build on positive fuel, phrased with buildDeps and
with the intermediate states written out. -/
theorem build_succ (fuel : Nat) (target : String) (st : St) :
    build (fuel + 1) target st =
      if st.err.isSome then st
      else
        match lookupRule st.rules target with
        | none =>
          { st with trace := st.trace ++ [Ev.enter target],
                    err := some PyErr.unknownTarget }
        | some r =>
          if circular st.rules target [] then
            { st with trace := st.trace ++ [Ev.enter target],
                      err := some PyErr.cyclicDependency }
          else
            if (buildDeps fuel r.deps
                { st with trace := st.trace ++ [Ev.enter target] }).err.isSome then
              buildDeps fuel r.deps
                { st with trace := st.trace ++ [Ev.enter target] }
            else
              stalePhase r target
                (buildDeps fuel r.deps
                  { st with trace := st.trace ++ [Ev.enter target] }) := by
  rw [build]
  simp only [buildDeps_eq_foldl]

/-! Basic structural lemmas: a pending exception short-circuits build, the
registry is never written, and the trace only grows. -/

theorem build_err_stuck {fuel : Nat} {target : String} {st : St}
    (h : st.err.isSome) : build fuel target st = st := by
  cases fuel <;> simp [build, h]

theorem buildDeps_err_stuck {fuel : Nat} {ds : List String} {st : St}
    (h : st.err.isSome) : buildDeps fuel ds st = st := by
  induction ds with
  | nil => rfl
  | cons d ds ih => rw [buildDeps]; simp only [h, if_true]; exact ih

theorem build_err_backward {fuel : Nat} {target : String} {st : St}
    (h : (build fuel target st).err = none) : st.err = none := by
  by_contra hc
  have hs : st.err.isSome := Option.ne_none_iff_isSome.1 hc
  rw [build_err_stuck hs] at h
  rw [h] at hs
  simp at hs

theorem buildDeps_err_backward {fuel : Nat} {ds : List String} {st : St}
    (h : (buildDeps fuel ds st).err = none) : st.err = none := by
  by_contra hc
  have hs : st.err.isSome := Option.ne_none_iff_isSome.1 hc
  rw [buildDeps_err_stuck hs] at h
  rw [h] at hs
  simp at hs

theorem runTask_rules (r : Rule) (target : String) (st : St) :
    (runTask r target st).rules = st.rules := rfl

theorem stalePhase_rules (r : Rule) (target : String) (st : St) :
    (stalePhase r target st).rules = st.rules := by
  unfold stalePhase
  split
  · rfl
  · split <;> rfl

theorem buildDeps_rules_aux (fuel : Nat)
    (ih : ∀ t st, (build fuel t st).rules = st.rules) :
    ∀ (ds : List String) (st : St), (buildDeps fuel ds st).rules = st.rules := by
  intro ds
  induction ds with
  | nil => intro st; rfl
  | cons d ds ihl =>
    intro st
    rw [buildDeps, ihl]
    split
    · rfl
    · split
      · rfl
      · exact ih _ _

theorem build_rules : ∀ (fuel : Nat) (target : String) (st : St),
    (build fuel target st).rules = st.rules := by
  intro fuel
  induction fuel with
  | zero => intro t st; unfold build; split <;> rfl
  | succ n ih =>
    intro t st
    rw [build_succ]
    split
    · rfl
    · split
      · rfl
      · split
        · rfl
        · split
          · exact buildDeps_rules_aux n ih _ _
          · rw [stalePhase_rules]; exact buildDeps_rules_aux n ih _ _

theorem buildDeps_rules {fuel : Nat} (ds : List String) (st : St) :
    (buildDeps fuel ds st).rules = st.rules :=
  buildDeps_rules_aux fuel (fun t st => build_rules fuel t st) ds st

theorem stalePhase_trace_grows (r : Rule) (target : String) (st : St) :
    st.trace <+: (stalePhase r target st).trace := by
  unfold stalePhase runTask
  split
  · dsimp only
    rw [List.append_assoc]
    exact List.prefix_append _ _
  · split
    · exact List.prefix_rfl
    · dsimp only
      rw [List.append_assoc]
      exact List.prefix_append _ _
    · exact List.prefix_append _ _

theorem buildDeps_trace_grows_aux (fuel : Nat)
    (ih : ∀ t st, st.trace <+: (build fuel t st).trace) :
    ∀ (ds : List String) (st : St), st.trace <+: (buildDeps fuel ds st).trace := by
  intro ds
  induction ds with
  | nil => intro st; exact List.prefix_rfl
  | cons d ds ihl =>
    intro st
    rw [buildDeps]
    refine List.IsPrefix.trans ?_ (ihl _)
    split
    · exact List.prefix_rfl
    · split
      · exact List.prefix_rfl
      · exact ih _ _

theorem build_trace_grows : ∀ (fuel : Nat) (target : String) (st : St),
    st.trace <+: (build fuel target st).trace := by
  intro fuel
  induction fuel with
  | zero => intro t st; unfold build; split <;> exact List.prefix_rfl
  | succ n ih =>
    intro t st
    rw [build_succ]
    split
    · exact List.prefix_rfl
    · split
      · exact List.prefix_append _ _
      · split
        · exact List.prefix_append _ _
        · rename_i r heq hcirc
          have h₁ : st.trace <+:
              (buildDeps n r.deps { st with trace := st.trace ++ [Ev.enter t] }).trace :=
            List.IsPrefix.trans (List.prefix_append st.trace [Ev.enter t])
              (buildDeps_trace_grows_aux n ih r.deps
                { st with trace := st.trace ++ [Ev.enter t] })
          split
          · exact h₁
          · exact List.IsPrefix.trans h₁ (stalePhase_trace_grows _ _ _)

theorem buildDeps_trace_grows {fuel : Nat} (ds : List String) (st : St) :
    st.trace <+: (buildDeps fuel ds st).trace :=
  buildDeps_trace_grows_aux fuel (fun t st => build_trace_grows fuel t st) ds st

/-! Characterisation of circular by a Prop-level reachability predicate, used
to reason about the cycle check without functional induction. -/

/-- The walk of circular, as a proposition: starting from t with the given
dependents path, some name already on the path is revisited. -/
inductive Hits (rules : Rules) : String → List String → Prop where
  | here {t : String} {dep : List String} : t ∈ dep → Hits rules t dep
  | there {t : String} {dep : List String} {r : Rule} {d : String} :
      lookupRule rules t = some r → d ∈ r.deps →
      Hits rules d (t :: dep) → Hits rules t dep

theorem circular_true_of_le {rules : Rules} :
    ∀ (n : Nat) (t : String) (dep : List String),
    keysLeft rules dep ≤ n → circular rules t dep = true → Hits rules t dep := by
  intro n
  induction n with
  | zero =>
    intro t dep hle hc
    rw [circular] at hc
    split at hc
    · exact Hits.here (by assumption)
    · rename_i h₁
      split at hc
      · simp at hc
      · rename_i r heq
        have hlt := keysLeft_lt dep h₁ heq
        omega
  | succ n ihn =>
    intro t dep hle hc
    rw [circular] at hc
    split at hc
    · exact Hits.here (by assumption)
    · rename_i h₁
      split at hc
      · simp at hc
      · rename_i r heq
        rw [List.any_eq_true] at hc
        obtain ⟨d, hd, hcd⟩ := hc
        have hlt := keysLeft_lt dep h₁ heq
        exact Hits.there heq hd (ihn d (t :: dep) (by omega) hcd)

theorem circular_true_of_Hits {rules : Rules} {t : String} {dep : List String}
    (h : Hits rules t dep) : circular rules t dep = true := by
  induction h with
  | here hmem => rw [circular]; simp [hmem]
  | @there t₁ dep₁ r d heq hd _ ih =>
    rw [circular]
    by_cases hmem : t₁ ∈ dep₁
    · simp [hmem]
    · simp only [hmem, dite_false]
      split
      · rename_i hnone
        rw [heq] at hnone
        exact absurd hnone (by simp)
      · rename_i r' heq'
        rw [heq] at heq'
        injection heq' with hrr
        subst hrr
        rw [List.any_eq_true]
        exact ⟨d, hd, ih⟩

theorem circular_iff_Hits {rules : Rules} {t : String} {dep : List String} :
    circular rules t dep = true ↔ Hits rules t dep :=
  ⟨circular_true_of_le (keysLeft rules dep) t dep (Nat.le_refl _),
   circular_true_of_Hits⟩

theorem Hits_mono {rules : Rules} {t : String} {dep dep' : List String}
    (h : Hits rules t dep) (hsub : ∀ x ∈ dep, x ∈ dep') : Hits rules t dep' := by
  induction h generalizing dep' with
  | here hmem => exact Hits.here (hsub _ hmem)
  | @there t₁ dep₁ r d heq hd _ ih =>
    by_cases hmem : t₁ ∈ dep'
    · exact Hits.here hmem
    · refine Hits.there heq hd (ih ?_)
      intro x hx
      rcases List.mem_cons.1 hx with h | h
      · exact h ▸ List.mem_cons_self _ _
      · exact List.mem_cons_of_mem _ (hsub _ h)

theorem circular_nil_lookup {rules : Rules} {t : String}
    (h : circular rules t [] = true) : (lookupRule rules t).isSome := by
  rw [circular] at h
  simp only [List.not_mem_nil, dite_false] at h
  rcases heq : lookupRule rules t with _ | r
  · rw [heq] at h; simp at h
  · simp

/-- A cycle reachable from a prerequisite of t is a cycle reachable from t:
with no cycle reachable from t, each registered prerequisite is cycle free. -/
theorem circular_false_dep {rules : Rules} {t d : String} {r : Rule}
    (h : circular rules t [] = false) (heq : lookupRule rules t = some r)
    (hd : d ∈ r.deps) : circular rules d [] = false := by
  by_contra hc
  have hcd : circular rules d [] = true := by
    cases hx : circular rules d [] with
    | true => rfl
    | false => exact absurd hx hc
  have hhd : Hits rules d [t] :=
    Hits_mono (circular_iff_Hits.1 hcd) (by intro x hx; simp at hx)
  have hT : Hits rules t [] := Hits.there heq hd hhd
  rw [circular_true_of_Hits hT] at h
  simp at h

/-- P is a registered transitive prerequisite of T: reachable from T along
prerequisite names through registered targets, and itself registered. -/
inductive TPrereq (rules : Rules) : String → String → Prop where
  | direct {T P : String} {r : Rule} : lookupRule rules T = some r →
      P ∈ r.deps → (lookupRule rules P).isSome → TPrereq rules T P
  | step {T d P : String} {r : Rule} : lookupRule rules T = some r →
      d ∈ r.deps → (lookupRule rules d).isSome →
      TPrereq rules d P → TPrereq rules T P

theorem TPrereq_registered {rules : Rules} {T P : String}
    (h : TPrereq rules T P) : (lookupRule rules P).isSome := by
  induction h with
  | direct _ _ hr => exact hr
  | step _ _ _ _ ih => exact ih

theorem Hits_of_TPrereq {rules : Rules} {t p : String}
    (h : TPrereq rules t p) :
    ∀ dep : List String, p ∈ t :: dep → Hits rules t dep := by
  induction h with
  | @direct T P r heq hmem _ =>
    intro dep hin
    exact Hits.there heq hmem (Hits.here hin)
  | @step T d P r heq hd _ _ ih =>
    intro dep hin
    exact Hits.there heq hd (ih (T :: dep) (List.mem_cons_of_mem _ hin))

/-- A target that is its own transitive prerequisite is reported by the
cycle check started from the empty path. -/
theorem circular_of_TPrereq_self {rules : Rules} {t : String}
    (h : TPrereq rules t t) : circular rules t [] = true :=
  circular_true_of_Hits (Hits_of_TPrereq h [] (List.mem_cons_self _ _))

/-! Lemmas about the staleness loop and phase. -/

theorem staleLoop_some {tmt : Nat} {fs : FS} {ds : List String} {d : String}
    (h : staleLoop tmt fs ds = .ok (some d)) :
    d ∈ ds ∧ ∃ dmt, fs d = some dmt ∧ tmt < dmt := by
  induction ds with
  | nil => simp [staleLoop] at h
  | cons e ds ih =>
    rw [staleLoop] at h
    rcases he : fs e with _ | emt
    · rw [he] at h; simp at h
    · rw [he] at h
      dsimp only at h
      by_cases hlt : tmt < emt
      · rw [if_pos hlt] at h
        injection h with h
        injection h with h
        subst h
        exact ⟨List.mem_cons_self _ _, emt, he, hlt⟩
      · rw [if_neg hlt] at h
        obtain ⟨hmem, dmt, hfs, hdmt⟩ := ih h
        exact ⟨List.mem_cons_of_mem _ hmem, dmt, hfs, hdmt⟩

theorem staleLoop_none {tmt : Nat} {fs : FS} {ds : List String}
    (h : staleLoop tmt fs ds = .ok none) :
    ∀ d ∈ ds, ∃ dmt, fs d = some dmt ∧ dmt ≤ tmt := by
  induction ds with
  | nil => intro d hd; simp at hd
  | cons e ds ih =>
    intro d hd
    rw [staleLoop] at h
    rcases he : fs e with _ | emt
    · rw [he] at h; simp at h
    · rw [he] at h
      dsimp only at h
      by_cases hlt : tmt < emt
      · rw [if_pos hlt] at h; simp at h
      · rw [if_neg hlt] at h
        rcases List.mem_cons.1 hd with rfl | hmem
        · exact ⟨emt, he, by omega⟩
        · exact ih h d hmem

/-- The loop reports the first prerequisite that exists and is strictly newer
than the target, provided every earlier prerequisite exists and is not newer. -/
theorem staleLoop_first {tmt dmt : Nat} {fs : FS} {ds₁ ds₂ : List String}
    {d : String} (h₁ : ∀ e ∈ ds₁, ∃ me, fs e = some me ∧ me ≤ tmt)
    (hd : fs d = some dmt) (hlt : tmt < dmt) :
    staleLoop tmt fs (ds₁ ++ d :: ds₂) = .ok (some d) := by
  induction ds₁ with
  | nil =>
    rw [List.nil_append, staleLoop, hd]
    dsimp only
    rw [if_pos hlt]
  | cons e ds₁ ih =>
    obtain ⟨me, hme, hle⟩ := h₁ e (List.mem_cons_self _ _)
    rw [List.cons_append, staleLoop, hme]
    dsimp only
    rw [if_neg (by omega)]
    exact ih (fun x hx => h₁ x (List.mem_cons_of_mem _ hx))

/-- The loop raises FileNotFoundError at the first missing prerequisite,
provided every earlier prerequisite exists and is not newer. -/
theorem staleLoop_missing {tmt : Nat} {fs : FS} {ds₁ ds₂ : List String}
    {d : String} (h₁ : ∀ e ∈ ds₁, ∃ me, fs e = some me ∧ me ≤ tmt)
    (hd : fs d = none) :
    staleLoop tmt fs (ds₁ ++ d :: ds₂) = .error .fileNotFound := by
  induction ds₁ with
  | nil => rw [List.nil_append, staleLoop, hd]
  | cons e ds₁ ih =>
    obtain ⟨me, hme, hle⟩ := h₁ e (List.mem_cons_self _ _)
    rw [List.cons_append, staleLoop, hme]
    dsimp only
    rw [if_neg (by omega)]
    exact ih (fun x hx => h₁ x (List.mem_cons_of_mem _ hx))

theorem stalePhase_trace_cases (r : Rule) (target : String) (st : St) :
    (stalePhase r target st).trace = st.trace ∨
    (stalePhase r target st).trace = st.trace ++ [Ev.task target, Ev.done target] ∨
    (stalePhase r target st).trace = st.trace ++ [Ev.done target] := by
  unfold stalePhase runTask
  split
  · right; left; dsimp only; rw [List.append_assoc]; rfl
  · split
    · left; rfl
    · right; left; dsimp only; rw [List.append_assoc]; rfl
    · right; right; rfl

theorem staleLoop_error {tmt : Nat} {fs : FS} {ds : List String} {e : PyErr}
    (h : staleLoop tmt fs ds = .error e) : e = PyErr.fileNotFound := by
  induction ds with
  | nil => simp [staleLoop] at h
  | cons d ds ih =>
    rw [staleLoop] at h
    rcases hd : fs d with _ | dmt
    · rw [hd] at h
      injection h with h
      exact h.symm
    · rw [hd] at h
      dsimp only at h
      by_cases hlt : tmt < dmt
      · rw [if_pos hlt] at h; simp at h
      · rw [if_neg hlt] at h; exact ih h

theorem stalePhase_err_cases (r : Rule) (target : String) (st : St) :
    (stalePhase r target st).err = st.err ∨
    (stalePhase r target st).err = some PyErr.fileNotFound := by
  unfold stalePhase runTask
  split
  · left; rfl
  · split
    · rename_i e he
      right
      dsimp only
      rw [staleLoop_error he]
    · left; rfl
    · left; rfl

theorem taskEvents_append (l₁ l₂ : List Ev) :
    taskEvents (l₁ ++ l₂) = taskEvents l₁ ++ taskEvents l₂ := by
  unfold taskEvents
  rw [List.filterMap_append]

theorem taskEvents_enter (t : String) : taskEvents [Ev.enter t] = [] := rfl

theorem taskEvents_done (t : String) : taskEvents [Ev.done t] = [] := rfl

/-! When a build run succeeds, every registered transitive prerequisite of
the target (and the target itself) has a completed recursive build on the
trace. -/

theorem buildDeps_done_aux (fuel : Nat)
    (ih : ∀ (t : String) (st : St), (build fuel t st).err = none →
      ∀ P, P = t ∨ TPrereq st.rules t P → Ev.done P ∈ (build fuel t st).trace) :
    ∀ (ds : List String) (st : St), (buildDeps fuel ds st).err = none →
      ∀ d ∈ ds, (lookupRule st.rules d).isSome →
      ∀ P, P = d ∨ TPrereq st.rules d P → Ev.done P ∈ (buildDeps fuel ds st).trace := by
  intro ds
  induction ds with
  | nil => intro st herr d hd; simp at hd
  | cons e ds ihl =>
    intro st herr d hd hreg P hP
    rw [buildDeps] at herr ⊢
    by_cases hse : st.err.isSome
    · rw [if_pos hse] at herr ⊢
      have h0 := buildDeps_err_backward herr
      rw [h0] at hse
      simp at hse
    · rw [if_neg hse] at herr ⊢
      rcases List.mem_cons.1 hd with rfl | hmem
      · rcases hle : lookupRule st.rules d with _ | r
        · rw [hle] at hreg; simp at hreg
        · rw [hle] at herr
          dsimp only at herr ⊢
          have hstep : (build fuel d st).err = none := buildDeps_err_backward herr
          have hdone := ih d st hstep P hP
          exact (buildDeps_trace_grows _ _).subset hdone
      · rcases hle : lookupRule st.rules e with _ | r
        · rw [hle] at herr
          dsimp only at herr ⊢
          exact ihl st herr d hmem hreg P hP
        · rw [hle] at herr
          dsimp only at herr ⊢
          have hrules : (build fuel e st).rules = st.rules := build_rules _ _ _
          refine ihl (build fuel e st) herr d hmem ?_ P ?_
          · rw [hrules]; exact hreg
          · rw [hrules]; exact hP

theorem stalePhase_shape (r : Rule) (target : String) (st : St) :
    stalePhase r target st = { st with err := some PyErr.fileNotFound } ∨
    ((stalePhase r target st).err = st.err ∧
      ((stalePhase r target st).trace
          = st.trace ++ [Ev.task target, Ev.done target] ∨
       (stalePhase r target st).trace = st.trace ++ [Ev.done target])) := by
  unfold stalePhase runTask
  split
  · right
    refine ⟨rfl, Or.inl ?_⟩
    dsimp only
    rw [List.append_assoc]
    rfl
  · split
    · rename_i e he
      left
      dsimp only
      rw [staleLoop_error he]
    · right
      refine ⟨rfl, Or.inl ?_⟩
      dsimp only
      rw [List.append_assoc]
      rfl
    · right
      exact ⟨rfl, Or.inr rfl⟩

theorem build_done_all : ∀ (fuel : Nat) (target : String) (st : St),
    (build fuel target st).err = none →
    ∀ P, P = target ∨ TPrereq st.rules target P →
    Ev.done P ∈ (build fuel target st).trace := by
  intro fuel
  induction fuel with
  | zero =>
    intro t st herr P hP
    unfold build at herr
    split at herr
    · rename_i hse; rw [herr] at hse; simp at hse
    · simp at herr
  | succ n ih =>
    intro t st herr P hP
    rw [build_succ] at herr
    split at herr
    · rename_i hse; rw [herr] at hse; simp at hse
    · rename_i hse
      split at herr
      · simp at herr
      · rename_i r heq
        split at herr
        · simp at herr
        · rename_i hcirc
          split at herr
          · rename_i hse2; rw [herr] at hse2; simp at hse2
          · rename_i hse2
            have hdeps :
                (buildDeps n r.deps
                  { st with trace := st.trace ++ [Ev.enter t] }).err = none := by
              rcases ho : (buildDeps n r.deps
                  { st with trace := st.trace ++ [Ev.enter t] }).err with _ | e
              · rfl
              · rw [ho] at hse2; simp at hse2
            rw [build_succ, if_neg hse, heq]
            dsimp only
            rw [if_neg hcirc, if_neg hse2]
            have hsub :=
              (stalePhase_trace_grows r t
                (buildDeps n r.deps
                  { st with trace := st.trace ++ [Ev.enter t] })).subset
            rcases hP with rfl | htp
            · rcases stalePhase_shape r P
                (buildDeps n r.deps
                  { st with trace := st.trace ++ [Ev.enter P] }) with hc | ⟨_, hc | hc⟩
              · rw [hc] at herr
                simp at herr
              · rw [hc]; simp
              · rw [hc]; simp
            · have hP2 : Ev.done P ∈
                  (buildDeps n r.deps
                    { st with trace := st.trace ++ [Ev.enter t] }).trace := by
                cases htp with
                | direct heq2 hmem hreg =>
                  rw [heq] at heq2
                  injection heq2 with hrr
                  subst hrr
                  exact buildDeps_done_aux n ih r.deps _ hdeps P hmem hreg P (Or.inl rfl)
                | step heq2 hdm hreg htp2 =>
                  rename_i d r2
                  rw [heq] at heq2
                  injection heq2 with hrr
                  subst hrr
                  exact buildDeps_done_aux n ih r.deps _ hdeps d hdm hreg P (Or.inr htp2)
              exact hsub hP2

/-! Every event of a build run concerns the requested target or one of its
registered transitive prerequisites. -/

/-- The target name an event is about. -/
def evName : Ev → String
  | .enter t => t
  | .task t => t
  | .done t => t

theorem buildDeps_scope_aux (fuel : Nat)
    (ih : ∀ (t : String) (st : St) (ev : Ev), ev ∈ (build fuel t st).trace →
      ev ∈ st.trace ∨ evName ev = t ∨ TPrereq st.rules t (evName ev)) :
    ∀ (ds : List String) (st : St) (ev : Ev), ev ∈ (buildDeps fuel ds st).trace →
      ev ∈ st.trace ∨ ∃ d, d ∈ ds ∧ (lookupRule st.rules d).isSome ∧
        (evName ev = d ∨ TPrereq st.rules d (evName ev)) := by
  intro ds
  induction ds with
  | nil => intro st ev h; exact Or.inl h
  | cons e ds ihl =>
    intro st ev h
    rw [buildDeps] at h
    by_cases hse : st.err.isSome
    · rw [if_pos hse] at h
      rcases ihl st ev h with h1 | ⟨d, hd, hreg, hor⟩
      · exact Or.inl h1
      · exact Or.inr ⟨d, List.mem_cons_of_mem _ hd, hreg, hor⟩
    · rw [if_neg hse] at h
      rcases hle : lookupRule st.rules e with _ | r
      · rw [hle] at h
        dsimp only at h
        rcases ihl st ev h with h1 | ⟨d, hd, hreg, hor⟩
        · exact Or.inl h1
        · exact Or.inr ⟨d, List.mem_cons_of_mem _ hd, hreg, hor⟩
      · rw [hle] at h
        dsimp only at h
        have hrules : (build fuel e st).rules = st.rules := build_rules _ _ _
        rcases ihl (build fuel e st) ev h with h1 | ⟨d, hd, hreg, hor⟩
        · rcases ih e st ev h1 with h2 | h2 | h2
          · exact Or.inl h2
          · exact Or.inr ⟨e, List.mem_cons_self _ _, by simp [hle], Or.inl h2⟩
          · exact Or.inr ⟨e, List.mem_cons_self _ _, by simp [hle], Or.inr h2⟩
        · rw [hrules] at hreg hor
          exact Or.inr ⟨d, List.mem_cons_of_mem _ hd, hreg, hor⟩

theorem build_scope : ∀ (fuel : Nat) (target : String) (st : St) (ev : Ev),
    ev ∈ (build fuel target st).trace →
    ev ∈ st.trace ∨ evName ev = target ∨ TPrereq st.rules target (evName ev) := by
  intro fuel
  induction fuel with
  | zero =>
    intro t st ev h
    unfold build at h
    split at h
    · exact Or.inl h
    · exact Or.inl h
  | succ n ih =>
    intro t st ev h
    rw [build_succ] at h
    split at h
    · exact Or.inl h
    · split at h
      · rcases List.mem_append.1 h with h1 | h1
        · exact Or.inl h1
        · simp at h1; subst h1; exact Or.inr (Or.inl rfl)
      · rename_i r heq
        split at h
        · rcases List.mem_append.1 h with h1 | h1
          · exact Or.inl h1
          · simp at h1; subst h1; exact Or.inr (Or.inl rfl)
        · rename_i hcirc
          have hcore : ev ∈ (buildDeps n r.deps
              { st with trace := st.trace ++ [Ev.enter t] }).trace →
              ev ∈ st.trace ∨ evName ev = t ∨ TPrereq st.rules t (evName ev) := by
            intro h2
            rcases buildDeps_scope_aux n ih r.deps _ ev h2 with h3 | ⟨d, hd, hreg, hor⟩
            · rcases List.mem_append.1 h3 with h4 | h4
              · exact Or.inl h4
              · simp at h4; subst h4; exact Or.inr (Or.inl rfl)
            · rcases hor with h5 | h5
              · subst h5
                exact Or.inr (Or.inr (TPrereq.direct heq hd hreg))
              · exact Or.inr (Or.inr (TPrereq.step heq hd hreg h5))
          split at h
          · exact hcore h
          · rcases stalePhase_shape r t (buildDeps n r.deps
                { st with trace := st.trace ++ [Ev.enter t] }) with hc | ⟨_, hc | hc⟩
            · rw [hc] at h
              exact hcore h
            · rw [hc] at h
              rcases List.mem_append.1 h with h1 | h1
              · exact hcore h1
              · rcases List.mem_cons.1 h1 with h4 | h4
                · subst h4; exact Or.inr (Or.inl rfl)
                · simp at h4; subst h4; exact Or.inr (Or.inl rfl)
            · rw [hc] at h
              rcases List.mem_append.1 h with h1 | h1
              · exact hcore h1
              · simp at h1; subst h1; exact Or.inr (Or.inl rfl)

/-! A cyclic-dependency error is only raised when the cycle check reports a
cycle for the requested target: with no cycle reachable, no recursive call
raises RecursionError. -/

theorem buildDeps_nocyc_aux (fuel : Nat)
    (ih : ∀ (t : String) (st : St), circular st.rules t [] = false →
      (build fuel t st).err = some PyErr.cyclicDependency →
      st.err = some PyErr.cyclicDependency) :
    ∀ (ds : List String) (st : St),
      (∀ d ∈ ds, (lookupRule st.rules d).isSome → circular st.rules d [] = false) →
      (buildDeps fuel ds st).err = some PyErr.cyclicDependency →
      st.err = some PyErr.cyclicDependency := by
  intro ds
  induction ds with
  | nil => intro st hds herr; exact herr
  | cons e ds ihl =>
    intro st hds herr
    rw [buildDeps] at herr
    by_cases hse : st.err.isSome
    · rw [if_pos hse] at herr
      exact ihl st (fun d hd => hds d (List.mem_cons_of_mem _ hd)) herr
    · rw [if_neg hse] at herr
      rcases hle : lookupRule st.rules e with _ | r
      · rw [hle] at herr
        dsimp only at herr
        exact ihl st (fun d hd => hds d (List.mem_cons_of_mem _ hd)) herr
      · rw [hle] at herr
        dsimp only at herr
        have hrules : (build fuel e st).rules = st.rules := build_rules _ _ _
        have herr2 : (build fuel e st).err = some PyErr.cyclicDependency := by
          refine ihl (build fuel e st) ?_ herr
          intro d hd hregd
          rw [hrules] at hregd ⊢
          exact hds d (List.mem_cons_of_mem _ hd) hregd
        exact ih e st
          (hds e (List.mem_cons_self _ _) (by simp [hle])) herr2

theorem build_nocyc : ∀ (fuel : Nat) (target : String) (st : St),
    circular st.rules target [] = false →
    (build fuel target st).err = some PyErr.cyclicDependency →
    st.err = some PyErr.cyclicDependency := by
  intro fuel
  induction fuel with
  | zero =>
    intro t st hcf herr
    unfold build at herr
    split at herr
    · exact herr
    · simp at herr
  | succ n ih =>
    intro t st hcf herr
    rw [build_succ] at herr
    split at herr
    · exact herr
    · split at herr
      · simp at herr
      · rename_i r heq
        split at herr
        · rename_i hcT
          rw [hcf] at hcT
          simp at hcT
        · rename_i hcirc
          have hds : ∀ d ∈ r.deps,
              (lookupRule st.rules d).isSome → circular st.rules d [] = false :=
            fun d hd _ => circular_false_dep hcf heq hd
          split at herr
          · exact buildDeps_nocyc_aux n ih r.deps
              { st with trace := st.trace ++ [Ev.enter t] } hds herr
          · rcases stalePhase_err_cases r t (buildDeps n r.deps
                { st with trace := st.trace ++ [Ev.enter t] }) with hc | hc
            · rw [hc] at herr
              exact buildDeps_nocyc_aux n ih r.deps
                { st with trace := st.trace ++ [Ev.enter t] } hds herr
            · rw [hc] at herr
              simp at herr

/-! Invariants for the idempotence analysis.  A productive registry is one
whose tasks behave like the compile and link rules: invoking the task for a
target creates exactly that target, time-stamped with the current clock. -/

/-- Every registered rule's task writes its target with the current clock
value and touches no other file. -/
def Productive (rules : Rules) : Prop :=
  ∀ p ∈ rules, ∀ (tg : String) (now : Nat) (fs : FS),
    p.2.eff tg now fs = fun s => if s = tg then some now else fs s

/-- Every existing file is older than the clock. -/
def ClockInv (st : St) : Prop := ∀ s m, st.fs s = some m → m < st.now

/-- A registered target is fresh: it exists and no prerequisite that exists
is strictly newer. -/
def Fresh (rules : Rules) (fs : FS) (X : String) : Prop :=
  ∃ r m, lookupRule rules X = some r ∧ fs X = some m ∧
    ∀ d ∈ r.deps, ∀ m', fs d = some m' → m' ≤ m

/-- Every target whose build has completed is fresh. -/
def DoneInv (st : St) : Prop := ∀ Z, Ev.done Z ∈ st.trace → Fresh st.rules st.fs Z

/-- Every target whose build has completed has completed builds for all its
registered prerequisites. -/
def DoneClosed (st : St) : Prop :=
  ∀ Z rz, Ev.done Z ∈ st.trace → lookupRule st.rules Z = some rz →
    ∀ d ∈ rz.deps, (lookupRule st.rules d).isSome → Ev.done d ∈ st.trace

/-- The conjunction threaded through a build run with productive tasks. -/
def BuildInv (st : St) : Prop := ClockInv st ∧ DoneInv st ∧ DoneClosed st

theorem Productive_lookup {rules : Rules} {X : String} {r : Rule}
    (hp : Productive rules) (h : lookupRule rules X = some r) :
    ∀ (tg : String) (now : Nat) (fs : FS),
      r.eff tg now fs = fun s => if s = tg then some now else fs s := by
  unfold lookupRule at h
  rcases ho : rules.find? (fun p => p.1 == X) with _ | pair
  · rw [ho] at h; simp at h
  · rw [ho] at h
    rw [Option.map_some'] at h
    injection h with h
    have hm := List.mem_of_find?_eq_some ho
    intro tg now fs
    rw [← h]
    exact hp pair hm tg now fs

/-- Appending trace events that include no new completed build, and changing
the error field, preserves the invariant. -/
theorem BuildInv_mk (st : St) (tr' : List Ev) (err' : Option PyErr)
    (hinv : BuildInv st)
    (hnew : ∀ Z, Ev.done Z ∈ tr' → Ev.done Z ∈ st.trace)
    (hsup : ∀ e ∈ st.trace, e ∈ tr') :
    BuildInv { st with trace := tr', err := err' } := by
  obtain ⟨hclock, hdone, hclosed⟩ := hinv
  refine ⟨hclock, ?_, ?_⟩
  · intro Z hz
    exact hdone Z (hnew Z hz)
  · intro Z rz hz hlz d hd hregd
    exact hsup _ (hclosed Z rz (hnew Z hz) hlz d hd hregd)

/-- Invoking the task of a non-fresh registered target (whose registered
prerequisites all have completed builds) preserves the invariant. -/
theorem task_case_inv (r : Rule) (t : String) (st₂ : St)
    (hp : Productive st₂.rules) (hinv : BuildInv st₂)
    (heq : lookupRule st₂.rules t = some r)
    (hdeps : ∀ d ∈ r.deps, (lookupRule st₂.rules d).isSome → Ev.done d ∈ st₂.trace)
    (hnf : ¬ Fresh st₂.rules st₂.fs t) :
    BuildInv { runTask r t st₂ with trace := (runTask r t st₂).trace ++ [Ev.done t] } := by
  obtain ⟨hclock, hdone, hclosed⟩ := hinv
  have heff := Productive_lookup hp heq t st₂.now st₂.fs
  have htdone : Ev.done t ∉ st₂.trace := fun h => hnf (hdone t h)
  unfold runTask
  dsimp only
  rw [heff]
  refine ⟨?_, ?_, ?_⟩
  · intro s m hm
    dsimp only at hm ⊢
    by_cases hs : s = t
    · rw [if_pos hs] at hm
      injection hm with hm
      omega
    · rw [if_neg hs] at hm
      have := hclock s m hm
      omega
  · intro Z hz
    dsimp only at hz
    rw [List.append_assoc, List.mem_append] at hz
    rcases hz with hz | hz
    · -- previously completed build
      have hZne : Z ≠ t := fun he => htdone (he ▸ hz)
      obtain ⟨rz, mz, hlz, hfz, hdz⟩ := hdone Z hz
      refine ⟨rz, mz, hlz, ?_, ?_⟩
      · dsimp only
        rw [if_neg hZne]
        exact hfz
      · intro d hd m' hm'
        dsimp only at hm'
        by_cases hdt : d = t
        · exfalso
          subst hdt
          exact htdone (hclosed Z rz hz hlz d hd (by simp [heq]))
        · rw [if_neg hdt] at hm'
          exact hdz d hd m' hm'
    · -- the newly completed build of t itself
      simp at hz
      subst hz
      refine ⟨r, st₂.now, heq, ?_, ?_⟩
      · dsimp only
        rw [if_pos rfl]
      · intro d hd m' hm'
        dsimp only at hm'
        by_cases hdt : d = Z
        · rw [if_pos hdt] at hm'
          injection hm' with hm'
          omega
        · rw [if_neg hdt] at hm'
          have := hclock d m' hm'
          omega
  · intro Z rz hz hlz d hd hregd
    dsimp only at hz hlz hregd ⊢
    rw [List.append_assoc, List.mem_append] at hz
    rcases hz with hz | hz
    · have := hclosed Z rz hz hlz d hd hregd
      rw [List.append_assoc, List.mem_append]
      exact Or.inl this
    · simp at hz
      subst hz
      rw [heq] at hlz
      injection hlz with hlz
      subst hlz
      rw [List.append_assoc, List.mem_append]
      exact Or.inl (hdeps d hd hregd)

theorem stalePhase_inv (r : Rule) (t : String) (st₂ : St)
    (hp : Productive st₂.rules) (hinv : BuildInv st₂)
    (heq : lookupRule st₂.rules t = some r)
    (hdeps : ∀ d ∈ r.deps, (lookupRule st₂.rules d).isSome → Ev.done d ∈ st₂.trace) :
    BuildInv (stalePhase r t st₂) := by
  unfold stalePhase
  split
  · rename_i hfs
    refine task_case_inv r t st₂ hp hinv heq hdeps ?_
    rintro ⟨r', m, _, hf, _⟩
    rw [hfs] at hf
    exact Option.noConfusion hf
  · rename_i tmt hfs
    split
    · exact BuildInv_mk st₂ st₂.trace _ hinv (fun Z hz => hz) (fun e he => he)
    · rename_i d₀ hsl
      refine task_case_inv r t st₂ hp hinv heq hdeps ?_
      rintro ⟨r', m, hl', hf', hd'⟩
      rw [heq] at hl'
      injection hl' with hl'
      subst hl'
      rw [hfs] at hf'
      injection hf' with hf'
      subst hf'
      obtain ⟨hd₀mem, dmt, hfd₀, hlt⟩ := staleLoop_some hsl
      have := hd' d₀ hd₀mem dmt hfd₀
      omega
    · rename_i hsl
      obtain ⟨hclock, hdone, hclosed⟩ := hinv
      refine ⟨hclock, ?_, ?_⟩
      · intro Z hz
        dsimp only at hz
        rw [List.mem_append] at hz
        rcases hz with hz | hz
        · exact hdone Z hz
        · simp at hz
          subst hz
          refine ⟨r, tmt, heq, hfs, ?_⟩
          intro d hd m' hm'
          obtain ⟨dmt, hfd, hle⟩ := staleLoop_none hsl d hd
          rw [hfd] at hm'
          injection hm' with hm'
          omega
      · intro Z rz hz hlz d hd hregd
        dsimp only at hz hlz hregd ⊢
        rw [List.mem_append] at hz
        rcases hz with hz | hz
        · exact List.mem_append_left _ (hclosed Z rz hz hlz d hd hregd)
        · simp at hz
          subst hz
          rw [heq] at hlz
          injection hlz with hlz
          subst hlz
          exact List.mem_append_left _ (hdeps d hd hregd)

theorem buildDeps_inv_aux (fuel : Nat)
    (ih : ∀ (t : String) (st : St), Productive st.rules → BuildInv st →
      BuildInv (build fuel t st)) :
    ∀ (ds : List String) (st : St), Productive st.rules → BuildInv st →
      BuildInv (buildDeps fuel ds st) := by
  intro ds
  induction ds with
  | nil => intro st hp hinv; exact hinv
  | cons e ds ihl =>
    intro st hp hinv
    rw [buildDeps]
    by_cases hse : st.err.isSome
    · rw [if_pos hse]; exact ihl st hp hinv
    · rw [if_neg hse]
      rcases hle : lookupRule st.rules e with _ | r
    
      · dsimp only
        exact ihl st hp hinv
      · dsimp only
        refine ihl (build fuel e st) ?_ (ih e st hp hinv)
        rw [build_rules]
        exact hp

theorem build_inv : ∀ (fuel : Nat) (target : String) (st : St),
    Productive st.rules → BuildInv st → BuildInv (build fuel target st) := by
  intro fuel
  induction fuel with
  | zero =>
    intro t st hp hinv
    unfold build
    split
    · exact hinv
    · exact BuildInv_mk st st.trace _ hinv (fun Z hz => hz) (fun e he => he)
  | succ n ih =>
    intro t st hp hinv
    have hnew : ∀ Z, Ev.done Z ∈ st.trace ++ [Ev.enter t] → Ev.done Z ∈ st.trace := by
      intro Z hz
      rcases List.mem_append.1 hz with h | h
      · exact h
      · simp at h
    have hsup : ∀ e ∈ st.trace, e ∈ st.trace ++ [Ev.enter t] :=
      fun e he => List.mem_append_left _ he
    rw [build_succ]
    split
    · exact hinv
    · split
      · exact BuildInv_mk st (st.trace ++ [Ev.enter t]) _ hinv hnew hsup
      · rename_i r heq
        split
        · exact BuildInv_mk st (st.trace ++ [Ev.enter t]) _ hinv hnew hsup
        · rename_i hcirc
          have hinv₁ :
              BuildInv { st with trace := st.trace ++ [Ev.enter t], err := st.err } :=
            BuildInv_mk st (st.trace ++ [Ev.enter t]) st.err hinv hnew hsup
          have hst₂ := buildDeps_inv_aux n ih r.deps
            { st with trace := st.trace ++ [Ev.enter t] } hp hinv₁
          split
          · exact hst₂
          · rename_i hse2
            have herr₂ : (buildDeps n r.deps
                { st with trace := st.trace ++ [Ev.enter t] }).err = none := by
              rcases ho : (buildDeps n r.deps
                  { st with trace := st.trace ++ [Ev.enter t] }).err with _ | e
              · rfl
              · rw [ho] at hse2; simp at hse2
            have hrules₂ : (buildDeps n r.deps
                { st with trace := st.trace ++ [Ev.enter t] }).rules = st.rules :=
              buildDeps_rules _ _
            refine stalePhase_inv r t _ ?_ hst₂ ?_ ?_
            · rw [hrules₂]; exact hp
            · rw [hrules₂]; exact heq
            · intro d hd hregd
              rw [hrules₂] at hregd
              exact buildDeps_done_aux n (build_done_all n) r.deps
                { st with trace := st.trace ++ [Ev.enter t] } herr₂ d hd hregd d
                (Or.inl rfl)

/-! When the target and all its registered transitive prerequisites are
fresh, a build run invokes no task and leaves the file system unchanged. -/

theorem buildDeps_noTask_aux (fuel : Nat)
    (ih : ∀ (t : String) (st : St),
      (∀ Z, Z = t ∨ TPrereq st.rules t Z → Fresh st.rules st.fs Z) →
      (build fuel t st).fs = st.fs ∧ (build fuel t st).now = st.now ∧
      taskEvents (build fuel t st).trace = taskEvents st.trace) :
    ∀ (ds : List String) (st : St),
      (∀ d ∈ ds, (lookupRule st.rules d).isSome →
        ∀ Z, Z = d ∨ TPrereq st.rules d Z → Fresh st.rules st.fs Z) →
      (buildDeps fuel ds st).fs = st.fs ∧ (buildDeps fuel ds st).now = st.now ∧
      taskEvents (buildDeps fuel ds st).trace = taskEvents st.trace := by
  intro ds
  induction ds with
  | nil => intro st h; exact ⟨rfl, rfl, rfl⟩
  | cons e ds ihl =>
    intro st h
    rw [buildDeps]
    by_cases hse : st.err.isSome
    · rw [if_pos hse]
      exact ihl st (fun d hd => h d (List.mem_cons_of_mem _ hd))
    · rw [if_neg hse]
      rcases hle : lookupRule st.rules e with _ | r
      · dsimp only
        exact ihl st (fun d hd => h d (List.mem_cons_of_mem _ hd))
      · dsimp only
        obtain ⟨hfs, hnow, htask⟩ :=
          ih e st (h e (List.mem_cons_self _ _) (by simp [hle]))
        have hrules : (build fuel e st).rules = st.rules := build_rules _ _ _
        have hypTail : ∀ d ∈ ds, (lookupRule (build fuel e st).rules d).isSome →
            ∀ Z, Z = d ∨ TPrereq (build fuel e st).rules d Z →
            Fresh (build fuel e st).rules (build fuel e st).fs Z := by
          intro d hd hregd Z hZ
          rw [hrules] at hregd hZ
          rw [hrules, hfs]
          exact h d (List.mem_cons_of_mem _ hd) hregd Z hZ
        obtain ⟨hfs2, hnow2, htask2⟩ := ihl (build fuel e st) hypTail
        exact ⟨hfs2.trans hfs, hnow2.trans hnow, htask2.trans htask⟩

theorem build_noTask : ∀ (fuel : Nat) (target : String) (st : St),
    (∀ Z, Z = target ∨ TPrereq st.rules target Z → Fresh st.rules st.fs Z) →
    (build fuel target st).fs = st.fs ∧ (build fuel target st).now = st.now ∧
    taskEvents (build fuel target st).trace = taskEvents st.trace := by
  intro fuel
  induction fuel with
  | zero =>
    intro t st h
    unfold build
    split
    · exact ⟨rfl, rfl, rfl⟩
    · exact ⟨rfl, rfl, rfl⟩
  | succ n ih =>
    intro t st h
    have htre : taskEvents (st.trace ++ [Ev.enter t]) = taskEvents st.trace := by
      rw [taskEvents_append, taskEvents_enter, List.append_nil]
    rw [build_succ]
    split
    · exact ⟨rfl, rfl, rfl⟩
    · split
      · exact ⟨rfl, rfl, htre⟩
      · rename_i r heq
        split
        · exact ⟨rfl, rfl, htre⟩
        · rename_i hcirc
          have hypDeps : ∀ d ∈ r.deps,
              (lookupRule ({ st with trace := st.trace ++ [Ev.enter t] } : St).rules d).isSome →
              ∀ Z, Z = d ∨ TPrereq ({ st with trace := st.trace ++ [Ev.enter t] } : St).rules d Z →
              Fresh ({ st with trace := st.trace ++ [Ev.enter t] } : St).rules
                ({ st with trace := st.trace ++ [Ev.enter t] } : St).fs Z := by
            intro d hd hregd Z hZ
            rcases hZ with rfl | hZ
            · exact h Z (Or.inr (TPrereq.direct heq hd hregd))
            · exact h Z (Or.inr (TPrereq.step heq hd hregd hZ))
          obtain ⟨hfs2, hnow2, htask2⟩ :=
            buildDeps_noTask_aux n ih r.deps
              { st with trace := st.trace ++ [Ev.enter t] } hypDeps
          have htask2' : taskEvents (buildDeps n r.deps
              { st with trace := st.trace ++ [Ev.enter t] }).trace
              = taskEvents st.trace := htask2.trans htre
          split
          · exact ⟨hfs2, hnow2, htask2'⟩
          · obtain ⟨r', m, hl', hf', hd'⟩ := h t (Or.inl rfl)
            rw [heq] at hl'
            injection hl' with hl'
            subst hl'
            have hft : (buildDeps n r.deps
                { st with trace := st.trace ++ [Ev.enter t] }).fs t = some m := by
              rw [hfs2]; exact hf'
            unfold stalePhase
            rw [hft]
            dsimp only
            rcases hsl : staleLoop m (buildDeps n r.deps
                { st with trace := st.trace ++ [Ev.enter t] }).fs r.deps with e | o
            · dsimp only
              exact ⟨hfs2, hnow2, htask2'⟩
            · rcases o with _ | d₀
              · dsimp only
                refine ⟨hfs2, hnow2, ?_⟩
                dsimp only
                rw [taskEvents_append, taskEvents_done, List.append_nil]
                exact htask2'
              · exfalso
                obtain ⟨hd₀mem, dmt, hfd₀, hlt⟩ := staleLoop_some hsl
                rw [hfs2] at hfd₀
                have := hd' d₀ hd₀mem dmt hfd₀
                omega

/-! Embedding of the rule variants and registration (lines 30-96, 99-152,
177-193 and 203-215 of src/vrog.py). -/

/-- The Compiler configuration dataclass (lines 30-56), with its defaults.
standard and optimization are optional; Python truthiness treats None and the
empty string alike, so they are modelled as Option String tested by truthy. -/
structure Compiler where
  compiler : String := "cc"
  standard : Option String := none
  standard_option : String := "-std="
  optimization : Option String := none
  optimization_option : String := "-O"
  warnings : List String := []
  warning_option : String := "-W"
  definitions : List String := []
  definition_option : String := "-D"
  extra_args : List String := []

/-- Python truthiness of an optional string: None and the empty string are
falsy. -/
def truthy : Option String → Bool
  | none => false
  | some s => !s.isEmpty

/-- The external world seen by subprocess.run: maps an argument vector to the
exit status and captured standard output of the spawned process. -/
abbrev World := List String → Nat × String

/-- Command construction of CompilerRule.task (lines 86-95).  Three name
lookups in the source do not resolve: line 90 reads self.optimization_option
(an attribute of Compiler, not of CompilerRule: AttributeError), and lines
91-92 read the unbound global names warning_option and definition_option
(NameError).  Each is reached only when its guarding condition holds: a falsy
optimization skips line 90, and an empty list comprehension never evaluates
its element expression. -/
def compiler_task_cmd (c : Compiler) (source target : String) :
    Except PyErr (List String) :=
  let cmd := [c.compiler, "-c"]
  let cmd := if truthy c.standard then
      cmd ++ [c.standard_option ++ c.standard.getD ""] else cmd
  if truthy c.optimization then .error .attributeError
  else if !c.warnings.isEmpty then .error .nameError
  else if !c.definitions.isEmpty then .error .nameError
  else .ok (cmd ++ c.extra_args ++ ["-o", target] ++ [source])

/-- CompilerRule.task (lines 82-96): construct the command and run it with
subprocess.run(cmd).  The CompletedProcess result is discarded — no check of
the exit status is made, so a failing compiler does not raise. -/
def compiler_task_run (c : Compiler) (source target : String) (w : World) :
    Except PyErr Unit :=
  match compiler_task_cmd c source target with
  | .error e => .error e
  | .ok cmd =>
    let _ := w cmd
    .ok ()

/-- The Linker configuration dataclass (lines 99-117), with its defaults. -/
structure Linker where
  linker : String := "cc"
  libraries : List String := []
  library_option : String := "-l"
  linker_args : List String := []
  linker_arg_option : String := "-Wl,"
  extra_args : List String := []

/-- Command construction of LinkerRule.task (lines 146-151): program, library
flags, linker pass-through flags, extra arguments, the object files, the
output target. -/
def linker_task_cmd (lk : Linker) (objects : List String) (target : String) :
    List String :=
  [lk.linker] ++ lk.libraries.map (fun l => lk.library_option ++ l)
    ++ lk.linker_args.map (fun l => lk.linker_arg_option ++ l)
    ++ lk.extra_args ++ objects ++ ["-o", target]

/-- LinkerRule.task (lines 142-152): run the command, discarding the
CompletedProcess result; the exit status is never inspected. -/
def linker_task_run (lk : Linker) (objects : List String) (target : String)
    (w : World) : Except PyErr Unit :=
  let _ := w (linker_task_cmd lk objects target)
  .ok ()

/-- Python str.split() with no separator: split on whitespace runs, dropping
empty pieces. -/
def pySplit (s : String) : List String :=
  (s.split (fun ch => ch.isWhitespace)).filter (fun w => !w.isEmpty)

/-- Python str.replace("\x5c\n", "") specialised to the continuation
pattern removed by gen_deps: scan left to right, removing each
backslash-newline pair. -/
def stripContinuations : List Char → List Char
  | [] => []
  | [c] => [c]
  | c₁ :: c₂ :: cs =>
    if c₁ = '\x5c' ∧ c₂ = '\n' then stripContinuations cs
    else c₁ :: stripContinuations (c₂ :: cs)

/-- Python str.splitlines() restricted to newline boundaries: the empty
string gives no lines, and a trailing newline produces no trailing empty
line. -/
def pySplitlines (s : String) : List String :=
  if s.isEmpty then []
  else
    let parts := s.splitOn "\n"
    if parts.getLast? = some "" then parts.dropLast else parts

/-- gen_deps (lines 177-193): run the compiler in dependency-listing mode,
capture stdout, remove line continuations, and parse the first line, dropping
its first token.  Line 189 reads the unbound global definition_option, so a
configuration with definitions raises NameError; when the process produces no
output, splitlines() is empty and the [0] subscript raises IndexError.  The
exit status of the process is never inspected. -/
def gen_deps (source : String) (c : Compiler) (w : World) :
    Except PyErr (List String) :=
  if !c.definitions.isEmpty then .error .nameError
  else
    let cmd := [c.compiler, "-MM", "-MP"] ++ c.extra_args ++ [source]
    let out := (w cmd).2
    match pySplitlines (String.mk (stripContinuations out.data)) with
    | [] => .error .indexError
    | l :: _ => .ok ((pySplit l).drop 1)

/-- The second argument of add_rule before its isinstance check: either an
object satisfying the BuildRule contract, or any other Python object. -/
inductive RuleArg where
  | buildRule (r : Rule)
  | notBuildRule

/-- BuildSystem.add_rule (lines 203-215): a non-BuildRule argument raises
TypeError and leaves the registry unchanged; otherwise the mapping for
target is set.  The registry is looked up by first match, so prepending
implements the overwriting dict assignment.  The only validation of target
is the str type check (covered here by typing); in particular the empty
string is accepted. -/
def add_rule (rules : Rules) (target : String) (arg : RuleArg) :
    Except PyErr Rules :=
  match arg with
  | .notBuildRule => .error .typeError
  | .buildRule r => .ok ((target, r) :: rules)

/-- The cycle walk at a name with no registered rule reports no cycle. -/
theorem circular_unreg {rules : Rules} {t : String} {dep : List String}
    (h : lookupRule rules t = none) (hmem : t ∉ dep) :
    circular rules t dep = false := by
  rw [circular, dif_neg hmem]
  split
  · rfl
  · rename_i r heq
    rw [h] at heq
    exact absurd heq (by simp)

/-- One step of the cycle walk at a registered target not yet on the path:
recurse into each prerequisite with the path extended by the target. -/
theorem circular_step {rules : Rules} {t : String} {dep : List String}
    {r : Rule} (hmem : t ∉ dep) (heq : lookupRule rules t = some r) :
    circular rules t dep = r.deps.any (fun d => circular rules d (t :: dep)) := by
  rw [circular, dif_neg hmem]
  split
  · rename_i hn
    rw [heq] at hn
    exact absurd hn (by simp)
  · rename_i r' heq'
    rw [heq] at heq'
    injection heq' with h
    rw [h]

/-! Claim theorems. -/

theorem append_cons_eq_of_not_mem {α : Type} {x : α} :
    ∀ (A : List α) {B l₁ l₂ : List α}, x ∉ A → x ∉ B →
    A ++ x :: B = l₁ ++ x :: l₂ → l₁ = A := by
  intro A
  induction A with
  | nil =>
    intro B l₁ l₂ hA hB h
    cases l₁ with
    | nil => rfl
    | cons b l₁' =>
      rw [List.nil_append] at h
      injection h with h₁ h₂
      exfalso
      apply hB
      rw [h₂]
      subst h₁
      exact List.mem_append_right _ (List.mem_cons_self _ _)
  | cons a A' ih =>
    intro B l₁ l₂ hA hB h
    cases l₁ with
    | nil =>
      rw [List.nil_append, List.cons_append] at h
      injection h with h₁ h₂
      exact absurd (h₁ ▸ List.mem_cons_self a A') hA
    | cons b l₁' =>
      rw [List.cons_append, List.cons_append] at h
      injection h with h₁ h₂
      rw [ih (fun hm => hA (List.mem_cons_of_mem _ hm)) hB h₂, h₁]

/-- A task effect that writes nothing: the task of a rule that fails to
produce its target. -/
def effId : String → Nat → FS → FS := fun _ _ fs => fs

/-- A productive task effect: creates exactly the target, stamped with the
clock. -/
def effWrite : String → Nat → FS → FS :=
  fun tg now fs s => if s = tg then some now else fs s

/-- C1.  Staleness decision of build, taken at the state reached after all
registered prerequisites have been recursively built (the stalePhase of the
run, lines 266-275).  Amended from the claim: the third part additionally
requires every prerequisite listed before the first strictly newer one to
exist on the file system — a missing prerequisite makes the comparison loop
raise FileNotFoundError before the newer prerequisite is reached, so the
claim as stated fails (see the counterexample).  Part one: a missing target
runs the task exactly once.  Part two: an existing target with no strictly
newer prerequisite never runs the task.  Part three: an existing target whose
first strictly newer prerequisite is d, all earlier prerequisites existing
and not newer, runs the task exactly once, triggered by d, and the loop
verdict is unchanged under any reinterpretation of the file system that
agrees on the earlier prerequisites and on d (no later prerequisite is
compared). -/
theorem C1_staleness_amended (r : Rule) (target : String) (st₂ : St)
    (herr : st₂.err = none) :
    (st₂.fs target = none →
      (stalePhase r target st₂).trace
        = st₂.trace ++ [Ev.task target, Ev.done target] ∧
      (stalePhase r target st₂).err = none)
    ∧ (∀ m, st₂.fs target = some m →
      (∀ d ∈ r.deps, ∀ m', st₂.fs d = some m' → m' ≤ m) →
      taskEvents (stalePhase r target st₂).trace = taskEvents st₂.trace)
    ∧ (∀ m dmt ds₁ d ds₂, st₂.fs target = some m → r.deps = ds₁ ++ d :: ds₂ →
      (∀ e ∈ ds₁, ∃ me, st₂.fs e = some me ∧ me ≤ m) →
      st₂.fs d = some dmt → m < dmt →
      (stalePhase r target st₂).trace
        = st₂.trace ++ [Ev.task target, Ev.done target] ∧
      staleLoop m st₂.fs r.deps = .ok (some d) ∧
      (∀ fs' : FS, (∀ e ∈ ds₁, fs' e = st₂.fs e) → fs' d = st₂.fs d →
        staleLoop m fs' r.deps = .ok (some d))) := by
  refine ⟨?_, ?_, ?_⟩
  · intro hfs
    unfold stalePhase runTask
    rw [hfs]
    exact ⟨by dsimp only; rw [List.append_assoc]; rfl, herr⟩
  · intro m hfs hold
    unfold stalePhase
    rw [hfs]
    dsimp only
    rcases hsl : staleLoop m st₂.fs r.deps with e | o
    · rfl
    · rcases o with _ | d₀
      · dsimp only
        rw [taskEvents_append, taskEvents_done, List.append_nil]
      · exfalso
        obtain ⟨hd₀mem, dmt, hfd₀, hlt⟩ := staleLoop_some hsl
        have := hold d₀ hd₀mem dmt hfd₀
        omega
  · intro m dmt ds₁ d ds₂ hfs hdeps hold hd hlt
    have hsl : staleLoop m st₂.fs r.deps = .ok (some d) := by
      rw [hdeps]
      exact staleLoop_first hold hd hlt
    refine ⟨?_, hsl, ?_⟩
    · unfold stalePhase runTask
      rw [hfs]
      dsimp only
      rw [hsl]
      dsimp only
      rw [List.append_assoc]
      rfl
    · intro fs' hagree hagd
      rw [hdeps]
      refine staleLoop_first ?_ ?_ hlt
      · intro e he
        obtain ⟨me, hme, hmle⟩ := hold e he
        exact ⟨me, (hagree e he).trans hme, hmle⟩
      · rw [hagd]
        exact hd

/-- Fixture for the C1 counterexample: target t exists with time 5, the
first prerequisite a is missing, the second prerequisite b exists with time
10 (strictly newer than t). -/
def stC1 : St :=
  { rules := [("t", ⟨["a", "b"], effId⟩)]
    fs := fun s => if s = "t" then some 5 else if s = "b" then some 10 else none
    now := 11
    trace := []
    err := none }

/-- C1 counterexample.  The claim asserts that with t existing and a
prerequisite strictly newer, the task runs exactly once, triggered by the
first such prerequisite.  Here b is strictly newer than t, yet the staleness
decision raises FileNotFoundError at the missing earlier prerequisite a and
invokes no task at all. -/
theorem C1_staleness_counterexample :
    stC1.fs "t" = some 5 ∧ stC1.fs "b" = some 10 ∧ (5 : Nat) < 10 ∧
    ("b" : String) ∈ (["a", "b"] : List String) ∧
    stC1.fs "a" = none ∧
    (stalePhase ⟨["a", "b"], effId⟩ "t" stC1).err = some PyErr.fileNotFound ∧
    taskEvents (stalePhase ⟨["a", "b"], effId⟩ "t" stC1).trace = [] := by
  refine ⟨rfl, rfl, by omega, by simp, rfl, rfl, rfl⟩

/-- Fixture for the C1 witness: empty registry, empty file system. -/
def stW1 : St :=
  { rules := []
    fs := fun _ => none
    now := 0
    trace := []
    err := none }

/-- Witness for C1: a missing target (first part of the theorem) runs its
task exactly once. -/
theorem C1_staleness_witness :
    (stalePhase ⟨[], effId⟩ "w1" stW1).trace = [Ev.task "w1", Ev.done "w1"] :=
  ((C1_staleness_amended ⟨[], effId⟩ "w1" stW1 rfl).1 rfl).1

/-- C2, amended.  The claim says a missing prerequisite of an existing
target is skipped by the staleness comparison and causes no error.  The code
has no existence check in the comparison loop: os.path.getmtime raises
FileNotFoundError on the first missing prerequisite (every earlier one
existing and not newer), the error aborts the build call, and no task is
invoked — the comparison is not skipped. -/
theorem C2_missing_prereq_amended (r : Rule) (target : String) (st₂ : St)
    (m : Nat) (ds₁ ds₂ : List String) (d : String)
    (hft : st₂.fs target = some m)
    (hdeps : r.deps = ds₁ ++ d :: ds₂)
    (hold : ∀ e ∈ ds₁, ∃ me, st₂.fs e = some me ∧ me ≤ m)
    (hmiss : st₂.fs d = none) :
    (stalePhase r target st₂).err = some PyErr.fileNotFound ∧
    taskEvents (stalePhase r target st₂).trace = taskEvents st₂.trace := by
  have hsl : staleLoop m st₂.fs r.deps = .error .fileNotFound := by
    rw [hdeps]
    exact staleLoop_missing hold hmiss
  unfold stalePhase
  rw [hft]
  dsimp only
  rw [hsl]
  exact ⟨rfl, rfl⟩

/-- Fixture for the C2 counterexample: registered target t exists with time
5 and has a single prerequisite s that does not exist. -/
def stC2 : St :=
  { rules := [("t", ⟨["s"], effId⟩)]
    fs := fun s => if s = "t" then some 5 else none
    now := 6
    trace := []
    err := none }

/-- C2 counterexample.  The claim asserts build skips the missing
prerequisite s and proceeds without raising; the code instead fails the
whole build call with FileNotFoundError and runs nothing. -/
theorem C2_missing_prereq_counterexample :
    stC2.fs "t" = some 5 ∧ stC2.fs "s" = none ∧
    (build 1 "t" stC2).err = some PyErr.fileNotFound ∧
    taskEvents (build 1 "t" stC2).trace = [] := by
  have hcirc : circular stC2.rules "t" [] = false := by
    rw [circular_step (by simp)
      (show lookupRule stC2.rules "t" = some ⟨["s"], effId⟩ from rfl)]
    simp only [List.any_cons, List.any_nil, Bool.or_false]
    exact circular_unreg rfl (by simp)
  refine ⟨rfl, rfl, ?_, ?_⟩
  · rw [build_succ, if_neg (by rw [show stC2.err = none from rfl]; simp)]
    simp only [show lookupRule stC2.rules "t" = some ⟨["s"], effId⟩ from rfl]
    rw [if_neg (by rw [hcirc]; simp)]
    rfl
  · rw [build_succ, if_neg (by rw [show stC2.err = none from rfl]; simp)]
    simp only [show lookupRule stC2.rules "t" = some ⟨["s"], effId⟩ from rfl]
    rw [if_neg (by rw [hcirc]; simp)]
    rfl

/-- Witness for C2: concrete instance of the amended theorem at the same
fixture, via the stalePhase reached by the build call. -/
theorem C2_missing_prereq_witness :
    (stalePhase ⟨["s"], effId⟩ "t"
      { stC2 with trace := [Ev.enter "t"] }).err = some PyErr.fileNotFound :=
  (C2_missing_prereq_amended ⟨["s"], effId⟩ "t" _ 5 [] [] "s" rfl rfl
    (by intro e he; simp at he) rfl).1

/-- C3.  For every state with no pending error and every target from which
the cycle walk (circular, seeded with the empty path) reports a cycle, the
build call fails with RecursionError (the CyclicDependency error kind) and
invokes no task: the trace gains no task event.  Reachability of a cycle is
expressed by the circular predicate itself, whose walk is exactly the
depth-first walk named in the claim; circular_iff_Hits characterises it. -/
theorem C3_cycle_rejected (fuel : Nat) (target : String) (st : St)
    (herr : st.err = none) (hcyc : circular st.rules target [] = true) :
    (build (fuel + 1) target st).err = some PyErr.cyclicDependency ∧
    taskEvents (build (fuel + 1) target st).trace = taskEvents st.trace := by
  have hse : ¬ st.err.isSome = true := by rw [herr]; simp
  rw [build_succ, if_neg hse]
  rcases hle : lookupRule st.rules target with _ | r
  · exfalso
    have hreg := circular_nil_lookup hcyc
    rw [hle] at hreg
    simp at hreg
  · dsimp only
    rw [if_pos hcyc]
    exact ⟨rfl, by rw [taskEvents_append, taskEvents_enter, List.append_nil]⟩

/-- Fixture for the C3 witness: target t depends on itself. -/
def stC3 : St :=
  { rules := [("t", ⟨["t"], effId⟩)]
    fs := fun _ => none
    now := 0
    trace := []
    err := none }

/-- Witness for C3 at a one-target self-loop: the build call raises
CyclicDependency and invokes no task. -/
theorem C3_cycle_rejected_witness :
    (build 1 "t" stC3).err = some PyErr.cyclicDependency ∧
    taskEvents (build 1 "t" stC3).trace = [] := by
  have hcyc : circular stC3.rules "t" [] = true :=
    circular_true_of_Hits
      (Hits.there (r := ⟨["t"], effId⟩) (d := "t") rfl (by simp)
        (Hits.here (by simp)))
  exact C3_cycle_rejected 0 "t" stC3 rfl hcyc

/-- C4.  Post-order: in a top-level build call on a registered target
starting from an empty trace, (1) whenever the target's own task appears on
the final trace, the completed recursive build of every registered
transitive prerequisite appears strictly before it, and (2) no name without
a registered rule is ever entered (prerequisites without rules are not
recursed into). -/
theorem C4_postorder (fuel : Nat) (target : String) (st : St)
    (herr : st.err = none) (htr : st.trace = [])
    (hreg : (lookupRule st.rules target).isSome) :
    (∀ P, TPrereq st.rules target P →
      ∀ l₁ l₂, (build fuel target st).trace = l₁ ++ Ev.task target :: l₂ →
        Ev.done P ∈ l₁)
    ∧ (∀ U, lookupRule st.rules U = none →
        Ev.enter U ∉ (build fuel target st).trace) := by
  constructor
  · intro P htp l₁ l₂ hsplit
    cases fuel with
    | zero =>
      unfold build at hsplit
      split at hsplit
      · rw [htr] at hsplit; simp at hsplit
      · rw [htr] at hsplit; simp at hsplit
    | succ n =>
      have hse : ¬ st.err.isSome = true := by rw [herr]; simp
      rw [build_succ, if_neg hse] at hsplit
      rcases hle : lookupRule st.rules target with _ | r
      · rw [hle] at hreg; simp at hreg
      · rw [hle] at hsplit
        dsimp only at hsplit
        by_cases hcirc : circular st.rules target [] = true
        · rw [if_pos hcirc] at hsplit
          have h0 : st.trace ++ [Ev.enter target] = l₁ ++ Ev.task target :: l₂ :=
            hsplit
          have hmem2 : Ev.task target ∈ st.trace ++ [Ev.enter target] := by
            rw [h0]; simp
          rw [htr] at hmem2
          simp at hmem2
        · rw [if_neg hcirc] at hsplit
          have hnotask : Ev.task target ∉ (buildDeps n r.deps
              { st with trace := st.trace ++ [Ev.enter target] }).trace := by
            intro hmem
            rcases buildDeps_scope_aux n (build_scope n) r.deps
                { st with trace := st.trace ++ [Ev.enter target] }
                (Ev.task target) hmem with h3 | ⟨d, hd, hregd, hor⟩
            · have h3' : Ev.task target ∈ st.trace ++ [Ev.enter target] := h3
              rw [htr] at h3'
              simp at h3'
            · have hTT : TPrereq st.rules target target := by
                rcases hor with h5 | h5
                · have h5' : target = d := h5
                  have hdir := TPrereq.direct hle hd hregd
                  rw [← h5'] at hdir
                  exact hdir
                · exact TPrereq.step hle hd hregd h5
              rw [circular_of_TPrereq_self hTT] at hcirc
              simp at hcirc
          split at hsplit
          · exact absurd (by rw [hsplit]; simp) hnotask
          · rename_i hse2
            rcases stalePhase_shape r target (buildDeps n r.deps
                { st with trace := st.trace ++ [Ev.enter target] })
                with hc | ⟨_, hc | hc⟩
            · rw [hc] at hsplit
              exact absurd (by rw [show (buildDeps n r.deps
                  { st with trace := st.trace ++ [Ev.enter target] }).trace
                    = l₁ ++ Ev.task target :: l₂ from hsplit]; simp) hnotask
            · rw [hc] at hsplit
              have hl₁ := append_cons_eq_of_not_mem
                (x := Ev.task target)
                ((buildDeps n r.deps
                  { st with trace := st.trace ++ [Ev.enter target] }).trace)
                hnotask (by simp) hsplit
              have herr₂ : (buildDeps n r.deps
                  { st with trace := st.trace ++ [Ev.enter target] }).err = none := by
                rcases ho : (buildDeps n r.deps
                    { st with trace := st.trace ++ [Ev.enter target] }).err with _ | e
                · rfl
                · rw [ho] at hse2; simp at hse2
              have hdone : Ev.done P ∈ (buildDeps n r.deps
                  { st with trace := st.trace ++ [Ev.enter target] }).trace := by
                cases htp with
                | direct heq2 hmem hregP =>
                  rw [hle] at heq2
                  injection heq2 with hrr
                  subst hrr
                  exact buildDeps_done_aux n (build_done_all n) r.deps _ herr₂
                    P hmem hregP P (Or.inl rfl)
                | step heq2 hdm hregd htp2 =>
                  rename_i d r2
                  rw [hle] at heq2
                  injection heq2 with hrr
                  subst hrr
                  exact buildDeps_done_aux n (build_done_all n) r.deps _ herr₂
                    d hdm hregd P (Or.inr htp2)
              rw [hl₁]
              exact hdone
            · rw [hc] at hsplit
              have : Ev.task target ∈ (buildDeps n r.deps
                  { st with trace := st.trace ++ [Ev.enter target] }).trace
                    ++ [Ev.done target] := by
                rw [hsplit]; simp
              rcases List.mem_append.1 this with h4 | h4
              · exact absurd h4 hnotask
              · simp at h4
  · intro U hU hmem
    rcases build_scope fuel target st (Ev.enter U) hmem with h1 | h1 | h1
    · rw [htr] at h1; simp at h1
    · have h2 : U = target := h1
      rw [← h2] at hreg
      rw [hU] at hreg
      simp at hreg
    · have h2 : (lookupRule st.rules U).isSome := TPrereq_registered h1
      rw [hU] at h2
      simp at h2

/-- Fixture for the C4 witness: binary target t depending on object a, both
with productive tasks, nothing on disk. -/
def rulesC4 : Rules := [("t", ⟨["a"], effWrite⟩), ("a", ⟨[], effWrite⟩)]

/-- Fixture state for the C4 witness. -/
def stC4 : St :=
  { rules := rulesC4
    fs := fun _ => none
    now := 0
    trace := []
    err := none }

theorem circular_rulesC4_t : circular rulesC4 "t" [] = false := by
  rw [circular_step (by simp)
    (show lookupRule rulesC4 "t" = some ⟨["a"], effWrite⟩ from rfl)]
  simp only [List.any_cons, List.any_nil, Bool.or_false]
  rw [circular_step (by simp)
    (show lookupRule rulesC4 "a" = some ⟨[], effWrite⟩ from rfl)]
  rfl

theorem circular_rulesC4_a : circular rulesC4 "a" [] = false := by
  rw [circular_step (by simp)
    (show lookupRule rulesC4 "a" = some ⟨[], effWrite⟩ from rfl)]
  rfl

theorem buildC4_trace : (build 2 "t" stC4).trace
    = [Ev.enter "t", Ev.enter "a", Ev.task "a", Ev.done "a",
       Ev.task "t", Ev.done "t"] := by
  have h1 := circular_rulesC4_t
  have h2 := circular_rulesC4_a
  simp only [rulesC4] at h1 h2
  simp [build, stalePhase, runTask, staleLoop, lookupRule,
    stC4, rulesC4, h1, h2, effWrite]

/-- Witness for C4: in the two-target build, the completed build of the
prerequisite a appears on the trace strictly before the task of t. -/
theorem C4_postorder_witness :
    Ev.done "a" ∈ [Ev.enter "t", Ev.enter "a", Ev.task "a", Ev.done "a"] := by
  have htp : TPrereq stC4.rules "t" "a" :=
    TPrereq.direct (r := ⟨["a"], effWrite⟩) rfl (by simp) rfl
  have htrace : (build 2 "t" stC4).trace
      = [Ev.enter "t", Ev.enter "a", Ev.task "a", Ev.done "a"]
        ++ Ev.task "t" :: [Ev.done "t"] := by
    rw [buildC4_trace]
    rfl
  exact (C4_postorder 2 "t" stC4 rfl rfl rfl).1 "a" htp
    [Ev.enter "t", Ev.enter "a", Ev.task "a", Ev.done "a"] [Ev.done "t"] htrace

/-- C5, amended.  The exit status of the spawned process never influences
the outcome of the compile or link task — subprocess.run is called without
check, its CompletedProcess is discarded, and the task completes normally
even when the process fails; there is no ExternalCommandFailed error kind.
Dependency extraction, run against a process that produces no output (as a
failed compiler does), does not return an empty dependency list: it raises
IndexError from the [0] subscript on the empty line list. -/
theorem C5_swallow_amended (c : Compiler) (source target : String)
    (lk : Linker) (objects : List String) (w w' : World) :
    (compiler_task_run c source target w = compiler_task_run c source target w')
    ∧ (linker_task_run lk objects target w = .ok ())
    ∧ (c.definitions = [] →
        (w ([c.compiler, "-MM", "-MP"] ++ c.extra_args ++ [source])).2 = "" →
        gen_deps source c w = .error PyErr.indexError) := by
  refine ⟨?_, rfl, ?_⟩
  · unfold compiler_task_run
    rcases compiler_task_cmd c source target with e | cmd
    · rfl
    · rfl
  · intro hdef hout
    unfold gen_deps
    rw [hdef]
    simp only [List.isEmpty_nil, Bool.not_false, Bool.false_eq_true, if_false]
    rw [hout]
    rfl

/-- Fixture: a world in which every spawned process fails with exit status 1
and produces no output. -/
def wFail : World := fun _ => (1, "")

/-- A world in which every process succeeds. -/
def wOk : World := fun _ => (0, "a.o: a.c foo.h\n")

/-- C5 counterexample.  Both the compile task and the link task complete
normally against a world whose processes exit with failure status 1: the
failure is not surfaced as any error, contradicting the claim that it
propagates and aborts the build. -/
theorem C5_swallow_counterexample :
    (wFail (linker_task_cmd {} ["a.o"] "out")).1 = 1 ∧
    compiler_task_run {} "a.c" "a.o" wFail = .ok () ∧
    linker_task_run {} ["a.o"] "out" wFail = .ok () := ⟨rfl, rfl, rfl⟩

/-- Witness for C5: the compile task's outcome is identical under the
failing and the succeeding world, and extraction on the failing world raises
IndexError. -/
theorem C5_swallow_witness :
    (compiler_task_run {} "a.c" "a.o" wFail = compiler_task_run {} "a.c" "a.o" wOk)
    ∧ gen_deps "a.c" {} wFail = .error PyErr.indexError :=
  ⟨(C5_swallow_amended {} "a.c" "a.o" {} [] wFail wOk).1,
   (C5_swallow_amended {} "a.c" "a.o" {} [] wFail wOk).2.2 rfl rfl⟩

/-- C6.  The compile command construction fails for every configuration with
a truthy optimization (line 90 reads self.optimization_option, an attribute
CompilerRule does not have: AttributeError), with non-empty warnings (line
91 reads the unbound global warning_option: NameError) and with non-empty
definitions (line 92, definition_option: NameError) — contradicting the
intended command documented in the Compiler docstring and the spec.  The
default configuration and a configuration with only a standard set do
produce the documented command. -/
theorem C6_compile_command_bug :
    compiler_task_cmd { warnings := ["all"] } "a.c" "a.o"
      = .error PyErr.nameError ∧
    compiler_task_cmd { optimization := some "2" } "a.c" "a.o"
      = .error PyErr.attributeError ∧
    compiler_task_cmd { definitions := ["NDEBUG"] } "a.c" "a.o"
      = .error PyErr.nameError ∧
    compiler_task_cmd {} "a.c" "a.o" = .ok ["cc", "-c", "-o", "a.o", "a.c"] ∧
    compiler_task_cmd { standard := some "c99" } "a.c" "a.o"
      = .ok ["cc", "-c", "-std=" ++ "c99", "-o", "a.o", "a.c"] :=
  ⟨rfl, rfl, rfl, rfl, rfl⟩

/-- C7, amended.  As stated the claim fails: a task need not create its
target, in which case a successful first build leaves the target missing and
the second build runs the task again (see the counterexample).  Amended with
the premise the spec assumes of real tasks: every registered rule's task
creates exactly its target, time-stamped with the current clock, and every
modification time on disk is initially below the clock.  Then after a
successful build, a second build of the same target invokes no task. -/
theorem C7_idempotent_amended (fuel₁ fuel₂ : Nat) (target : String) (st : St)
    (herr0 : st.err = none) (htr : st.trace = [])
    (hp : Productive st.rules) (hclock : ClockInv st)
    (hsucc : (build fuel₁ target st).err = none) :
    taskEvents (build fuel₂ target (build fuel₁ target st)).trace
      = taskEvents (build fuel₁ target st).trace := by
  have hinv0 : BuildInv st := by
    refine ⟨hclock, ?_, ?_⟩
    · intro Z hz
      rw [htr] at hz
      simp at hz
    · intro Z rz hz
      rw [htr] at hz
      simp at hz
  have hinv1 := build_inv fuel₁ target st hp hinv0
  have hrules1 : (build fuel₁ target st).rules = st.rules := build_rules _ _ _
  have hfresh : ∀ Z, Z = target ∨ TPrereq (build fuel₁ target st).rules target Z →
      Fresh (build fuel₁ target st).rules (build fuel₁ target st).fs Z := by
    intro Z hZ
    rw [hrules1] at hZ
    have hdone : Ev.done Z ∈ (build fuel₁ target st).trace :=
      build_done_all fuel₁ target st hsucc Z hZ
    exact hinv1.2.1 Z hdone
  exact (build_noTask fuel₂ target (build fuel₁ target st) hfresh).2.2

/-- Fixture for the C7 counterexample: one registered target t whose task
does nothing (fails to create t), nothing on disk. -/
def rulesC7 : Rules := [("t", ⟨[], effId⟩)]

/-- Fixture state for the C7 counterexample. -/
def stC7 : St :=
  { rules := rulesC7
    fs := fun _ => none
    now := 0
    trace := []
    err := none }

theorem circular_rulesC7 : circular rulesC7 "t" [] = false := by
  rw [circular_step (by simp)
    (show lookupRule rulesC7 "t" = some ⟨[], effId⟩ from rfl)]
  rfl

/-- C7 counterexample.  The first build of t completes successfully and
leaves the file system exactly as it was (the task makes no change, so no
filesystem change happens afterwards either), yet the second build invokes
the task again: the task list after two builds is t twice. -/
theorem C7_idempotent_counterexample :
    (build 1 "t" stC7).err = none ∧
    (build 1 "t" stC7).fs = stC7.fs ∧
    taskEvents (build 1 "t" stC7).trace = ["t"] ∧
    taskEvents (build 1 "t" (build 1 "t" stC7)).trace = ["t", "t"] := by
  have h1 := circular_rulesC7
  simp only [rulesC7] at h1
  refine ⟨?_, ?_, ?_, ?_⟩ <;>
    simp [build, stalePhase, runTask, staleLoop, lookupRule, taskEvents,
      stC7, rulesC7, h1, effId]

/-- Fixture for the C7 witness: one registered target with a productive
task. -/
def rulesC7w : Rules := [("w7", ⟨[], effWrite⟩)]

/-- Fixture state for the C7 witness. -/
def stC7w : St :=
  { rules := rulesC7w
    fs := fun _ => none
    now := 0
    trace := []
    err := none }

theorem circular_rulesC7w : circular rulesC7w "w7" [] = false := by
  rw [circular_step (by simp)
    (show lookupRule rulesC7w "w7" = some ⟨[], effWrite⟩ from rfl)]
  rfl

/-- Witness for C7: with the productive task, the second build of w7 adds no
task invocation. -/
theorem C7_idempotent_witness :
    taskEvents (build 1 "w7" (build 1 "w7" stC7w)).trace
      = taskEvents (build 1 "w7" stC7w).trace := by
  have hp : Productive stC7w.rules := by
    intro p hmem tg now fs
    simp [stC7w, rulesC7w] at hmem
    rw [hmem]
    rfl
  have hclock : ClockInv stC7w := by
    intro st m h
    simp [stC7w] at h
  have hsucc : (build 1 "w7" stC7w).err = none := by
    have h1 := circular_rulesC7w
    simp only [rulesC7w] at h1
    simp [build, stalePhase, runTask, staleLoop, lookupRule,
      stC7w, rulesC7w, h1, effWrite]
  exact C7_idempotent_amended 1 1 "w7" stC7w rfl rfl hp hclock hsucc

/-- C8, amended.  add_rule performs no emptiness check on the target name:
registration succeeds for every string target, including the empty string,
and installs the mapping; a rule argument that is not a BuildRule raises
TypeError (the InvalidArgument condition) and leaves the registry
unchanged. -/
theorem C8_add_rule_amended (rules : Rules) (target : String) (r : Rule) :
    add_rule rules target (RuleArg.buildRule r) = .ok ((target, r) :: rules) ∧
    lookupRule ((target, r) :: rules) target = some r ∧
    add_rule rules target RuleArg.notBuildRule = .error PyErr.typeError := by
  refine ⟨rfl, ?_, rfl⟩
  unfold lookupRule
  simp [List.find?]

/-- C8 counterexample.  Registering the empty target name succeeds and maps
the empty string to the rule, where the claim requires an InvalidArgument
failure. -/
theorem C8_add_rule_counterexample :
    add_rule [] "" (RuleArg.buildRule ⟨[], effId⟩)
      = .ok [("", ⟨[], effId⟩)] ∧
    lookupRule [("", (⟨[], effId⟩ : Rule))] "" = some ⟨[], effId⟩ :=
  ⟨rfl, rfl⟩

/-- C9.  Cycle detection state is per invocation: a build call raises
CyclicDependency exactly when its target is registered and the cycle walk
seeded with the empty path reports a cycle, so two build calls on states
with the same registry — regardless of any other difference, such as one
state being the result of earlier builds — give the same cyclic verdict; and
one level deeper the walk receives exactly the caller's path extended with
the caller's target. -/
theorem C9_fresh_path (fuel₁ fuel₂ : Nat) (target : String) (st₁ st₂ : St)
    (hrul : st₁.rules = st₂.rules) (he₁ : st₁.err = none) (he₂ : st₂.err = none) :
    ((build (fuel₁ + 1) target st₁).err = some PyErr.cyclicDependency ↔
      (lookupRule st₁.rules target).isSome ∧ circular st₁.rules target [] = true)
    ∧ ((build (fuel₁ + 1) target st₁).err = some PyErr.cyclicDependency ↔
       (build (fuel₂ + 1) target st₂).err = some PyErr.cyclicDependency)
    ∧ (∀ (dependents : List String) (r : Rule), target ∉ dependents →
        lookupRule st₁.rules target = some r →
        circular st₁.rules target dependents
          = r.deps.any (fun d => circular st₁.rules d (target :: dependents))) := by
  have hchar : ∀ (fuel : Nat) (st : St), st.err = none → st.rules = st₁.rules →
      ((build (fuel + 1) target st).err = some PyErr.cyclicDependency ↔
        (lookupRule st₁.rules target).isSome ∧
          circular st₁.rules target [] = true) := by
    intro fuel st he hr
    constructor
    · intro herr
      by_cases hcyc : circular st.rules target [] = true
      · have hreg := circular_nil_lookup hcyc
        rw [hr] at hreg hcyc
        exact ⟨hreg, hcyc⟩
      · have hcf : circular st.rules target [] = false := by
          cases hx : circular st.rules target [] with
          | true => exact absurd hx hcyc
          | false => rfl
        have := build_nocyc (fuel + 1) target st hcf herr
        rw [he] at this
        simp at this
    · intro ⟨hreg, hcyc⟩
      rw [← hr] at hreg hcyc
      have hse : ¬ st.err.isSome = true := by rw [he]; simp
      rw [build_succ, if_neg hse]
      rcases hle : lookupRule st.rules target with _ | r
      · rw [hle] at hreg; simp at hreg
      · dsimp only
        rw [if_pos hcyc]
    
  refine ⟨hchar fuel₁ st₁ he₁ rfl, ?_, ?_⟩
  · rw [hchar fuel₁ st₁ he₁ rfl, hchar fuel₂ st₂ he₂ hrul.symm]
  · intro dependents r hmem heq
    exact circular_step hmem heq

/-- Fixture: a second state with the same registry as stC3 but a different
file system, clock and trace, as left by unrelated earlier activity. -/
def stC9 : St :=
  { rules := stC3.rules
    fs := fun _ => some 3
    now := 7
    trace := [Ev.enter "x", Ev.done "x"]
    err := none }

/-- Witness for C9: consecutive independent build calls on the same registry
(one on a fresh state, one on a state with prior history) agree on the
cyclic verdict. -/
theorem C9_fresh_path_witness :
    (build 1 "t" stC3).err = some PyErr.cyclicDependency ↔
    (build 1 "t" stC9).err = some PyErr.cyclicDependency :=
  (C9_fresh_path 0 0 "t" stC3 stC9 rfl rfl rfl).2.1

/-- C10.  The build traversal never mutates the rule registry: for every
state and target, after the build call — whether it returns normally or with
any error — the registry held in the state is exactly what it was.  Tasks
are modelled as file-system effects, as every rule variant of the repository
behaves; nothing in build, circular or the staleness phase writes the
registry. -/
theorem C10_registry_unchanged (fuel : Nat) (target : String) (st : St) :
    (build fuel target st).rules = st.rules :=
  build_rules fuel target st

end Vrog
